import Mathlib

/-
  Verification development for the mappy-rs batch-mapping pipeline
  (src/lib.rs). The concurrent producer/worker/collector pipeline of
  `Aligner::_map_batch`, the worker loop spawned by `enable_threading`,
  the collector thread, and `AlignmentBatchResultIter::__next__` are
  shallowly embedded as pure Lean functions. Machine concurrency is
  modelled by a deterministic sequential schedule: the dispatcher runs
  to completion, then the workers consume the work queue in FIFO order,
  then the collector consumes the results queue, then the result
  iterator consumes the output channel. The alignment engine
  (minimap2) is an external collaborator and is abstracted as a
  function `String → Option O` (`none` models a mapping failure,
  whose result the worker drops after logging).
-/

namespace MappyRs

/-- A Python value stored in a record field: either a Python string
(the only shape accepted for the "seq" field by
`seq.extract::<String>()`, lib.rs line 857) or any other Python object,
tagged by a number so that distinct opaque objects can be told apart. -/
inductive PyVal where
  | str (s : String)
  | other (tag : Nat)
deriving DecidableEq, Repr

/-- The string-keyed mapping extracted from one record by
`py_dict.extract::<HashMap<String, Py<PyAny>>>()` (lib.rs line 847);
this whole mapping is the caller-supplied metadata stored in
`res.data`. -/
abbrev Metadata := List (String × PyVal)

/-- One element of the caller-supplied batch: `none` models an element
that is not mapping-like (dict extraction fails, lib.rs lines 847-854),
`some fields` models a dict with the given fields. -/
abbrev Record := Option Metadata

/-- First-match field lookup, modelling `py_dict.get_item(key)`
(lib.rs line 856). -/
def lookupField : Metadata → String → Option PyVal
  | [], _ => none
  | (k, v) :: rest, key => if k = key then some v else lookupField rest key

/-- The Python-level errors raised by `_map_batch`:
`configurationError` is the PyRuntimeError of lib.rs lines 777-781,
`malformedRecord` the PyTypeError of lines 849-853, `missingField` the
PyKeyError of lines 861-864, `seqNotString` the PyValueError of line
859, and `queueFull id` the PyRuntimeError of lines 890-895 raised in
fail-fast mode naming the offending correlation id. -/
inductive PyError where
  | configurationError
  | malformedRecord
  | missingField
  | seqNotString
  | queueFull (id : Nat)
deriving DecidableEq, Repr

/-- A Rust panic, produced in the source by `.unwrap()` on a failed
queue push (lib.rs lines 581, 619, 902). -/
inductive Panic where
  | panic
deriving DecidableEq, Repr

/-- The `WorkQueue<T>` enum of lib.rs lines 36-45, carrying work items,
per-worker `Done` sentinels, results and the final `Finished` marker. -/
inductive WorkQueue (T : Type) where
  | Work (t : T)
  | Done
  | Result (t : T)
  | Finished
deriving DecidableEq, Repr

/-- A `crossbeam::queue::ArrayQueue`: a bounded FIFO. `items` lists the
queued elements oldest first. -/
structure ArrayQueue (α : Type) where
  cap : Nat
  items : List α
deriving DecidableEq, Repr

/-- `ArrayQueue::push`: appends at the back when there is room, and
returns the rejected element when the queue is full (the `Err(e)`
of crossbeam, whose payload is the element itself). -/
def ArrayQueue.push (q : ArrayQueue α) (x : α) : Except α (ArrayQueue α) :=
  if q.items.length < q.cap then .ok { q with items := q.items ++ [x] }
  else .error x

/-- `ArrayQueue::pop`: removes the oldest element, `none` when empty. -/
def ArrayQueue.pop (q : ArrayQueue α) : Option (α × ArrayQueue α) :=
  match q.items with
  | [] => none
  | x :: xs => some (x, { q with items := xs })

/-- The body of the backoff `while attempts < max_attempts` loop of
lib.rs lines 875-885, with the loop guard mirrored structurally: the
first argument counts the remaining iterations (`6 - attempts`, so the
recursion ends exactly when `attempts` reaches `max_attempts = 6`).
Each iteration re-pushes the same rejected element; after a failed
retry the dispatcher sleeps `dur` milliseconds and doubles `dur`.
Returns the final queue, the list of sleeps performed, and the final
`attempts` counter. -/
def backoffGo (q : ArrayQueue α) (x : α) :
    Nat → Nat → Nat → ArrayQueue α × List Nat × Nat
  | 0, attempts, _ => (q, [], attempts)
  | remaining + 1, attempts, dur =>
    match q.push x with
    | .ok q2 => (q2, [], attempts)
    | .error _ =>
      let r := backoffGo q x remaining (attempts + 1) (dur * 2)
      (r.1, dur :: r.2.1, r.2.2)

/-- The whole backoff retry loop of lib.rs lines 871-888, entered with
`attempts = 0` and an initial 50 ms sleep duration: up to 6 further
pushes of the same rejected element. The code logs an internal error
when `attempts` reaches 6 (lines 886-888) but raises nothing. -/
def backoffRetry (q : ArrayQueue α) (x : α) (attempts dur : Nat) :
    ArrayQueue α × List Nat × Nat :=
  backoffGo q x (6 - attempts) attempts dur

/-- The per-record push of lib.rs lines 867-898: try the push; on
failure either run the backoff loop (initial sleep 50 ms) and continue
regardless of its outcome, or — without backoff — raise `queueFull`
naming the offending id. -/
def pushWork (backOff : Bool) (q : ArrayQueue (WorkQueue (Nat × String)))
    (id : Nat) (x : WorkQueue (Nat × String)) :
    Except PyError (ArrayQueue (WorkQueue (Nat × String)) × List Nat) :=
  match q.push x with
  | .ok q2 => .ok (q2, [])
  | .error e =>
    if backOff then
      let r := backoffRetry q e 0 50
      .ok (r.1, r.2.1)
    else .error (.queueFull id)

/-- The dispatcher-side state threaded through the dispatch loop: the
pending-metadata store `res.data` (most recent insertion first), the
shared work queue, and the sleeps performed so far by backoff retries. -/
structure DispatchSt where
  store : List (Nat × Metadata)
  wq : ArrayQueue (WorkQueue (Nat × String))
  sleeps : List Nat
deriving DecidableEq, Repr

/-- The dispatch loop of lib.rs lines 845-899, starting at correlation
id `id0`. For each record in order: fail with `malformedRecord` if it
is not a dict; insert the whole dict into the pending-metadata store
(line 855 — this happens before the "seq" check); fail with
`missingField` when "seq" is absent and `seqNotString` when it is not a
string; otherwise push `Work (id, seq)` with the queue-full policy of
`pushWork`. An abort (`some e`) stops the loop at once and preserves
the state reached so far. -/
def dispatchFrom (backOff : Bool) :
    DispatchSt → Nat → List Record → DispatchSt × Option PyError
  | st, _, [] => (st, none)
  | st, id0, r :: rs =>
    match r with
    | none => (st, some .malformedRecord)
    | some fields =>
      let st1 : DispatchSt := { st with store := (id0, fields) :: st.store }
      match lookupField fields "seq" with
      | none => (st1, some .missingField)
      | some (.other _) => (st1, some .seqNotString)
      | some (.str seq) =>
        match pushWork backOff st1.wq id0 (.Work (id0, seq)) with
        | .error e => (st1, some e)
        | .ok (wq2, sl) =>
          dispatchFrom backOff { st1 with wq := wq2, sleeps := st1.sleeps ++ sl }
            (id0 + 1) rs

/-- The sentinel loop of lib.rs lines 900-903: push one `Done` per
worker thread with `.unwrap()`, so a full queue is a panic. -/
def pushDones (q : ArrayQueue (WorkQueue (Nat × String))) :
    Nat → Except Panic (ArrayQueue (WorkQueue (Nat × String)))
  | 0 => .ok q
  | n + 1 =>
    match q.push .Done with
    | .ok q2 => pushDones q2 n
    | .error _ => .error .panic

/-- Outcome of the dispatcher side of `_map_batch`: `err e st` models
the Python exception `e` propagating out of `map_batch` (the state
records what was left behind in the shared work queue), `panicked`
models an `.unwrap()` panic while pushing `Done` sentinels, and
`ok st` a completed dispatch. -/
inductive DispatchResult where
  | err (e : PyError) (st : DispatchSt)
  | panicked (st : DispatchSt)
  | ok (st : DispatchSt)
deriving DecidableEq, Repr

/-- The dispatcher side of `_map_batch` (lib.rs lines 771-906, minus
the collector thread it spawns): refuse with `configurationError` when
threading was never enabled (`n_threads == 0`, lines 777-781), then run
the dispatch loop from id 0 with a fresh empty metadata store (the
`AlignmentBatchResultIter` is freshly constructed by `map_batch`), and
on success push one `Done` sentinel per worker. -/
def mapBatchDispatch (nThreads : Nat) (backOff : Bool)
    (wq0 : ArrayQueue (WorkQueue (Nat × String))) (records : List Record) :
    DispatchResult :=
  if nThreads = 0 then .err .configurationError ⟨[], wq0, []⟩
  else
    match dispatchFrom backOff ⟨[], wq0, []⟩ 0 records with
    | (st, some e) => .err e st
    | (st, none) =>
      match pushDones st.wq nThreads with
      | .error _ => .panicked st
      | .ok wq2 => .ok { st with wq := wq2 }

/-- The work-queue state left in the `Aligner` by a dispatch, whatever
its outcome (the queue is shared state, lib.rs line 844). -/
def DispatchResult.wqOf : DispatchResult → ArrayQueue (WorkQueue (Nat × String))
  | .err _ st => st.wq
  | .panicked st => st.wq
  | .ok st => st.wq

/-- The number of `Done` sentinels in a list of queue items. -/
def doneCount {T : Type} (items : List (WorkQueue T)) : Nat :=
  (items.filter fun i => match i with | .Done => true | _ => false).length

/-- One iteration of the worker loop of `enable_threading` (lib.rs
lines 576-631) on a popped work item, publishing to the results queue
`rq`. On `Done`: `rq.push(WorkQueue::Done).unwrap()` (line 581) — a
full queue panics the worker. On `Work (id, seq)`: run the engine; on
success `rq.push(WorkQueue::Result((mappings, id))).unwrap()` (line
619) — again a panic when full; on failure log and drop the item
(lines 621-623), so no result is ever produced for that id. Any other
variant is logged and ignored (lines 626-628). -/
def workerStep (engine : String → Option O)
    (rq : ArrayQueue (WorkQueue (O × Nat))) :
    WorkQueue (Nat × String) → Except Panic (ArrayQueue (WorkQueue (O × Nat)))
  | .Done =>
    match rq.push .Done with
    | .ok q2 => .ok q2
    | .error _ => .error .panic
  | .Work (id, seq) =>
    match engine seq with
    | some mappings =>
      match rq.push (.Result (mappings, id)) with
      | .ok q2 => .ok q2
      | .error _ => .error .panic
    | none => .ok rq
  | _ => .ok rq

/-- The worker pool consuming the work queue in FIFO order under the
sequential schedule: each popped item goes through `workerStep`. -/
def workerRun (engine : String → Option O)
    (rq : ArrayQueue (WorkQueue (O × Nat))) :
    List (WorkQueue (Nat × String)) →
    Except Panic (ArrayQueue (WorkQueue (O × Nat)))
  | [] => .ok rq
  | i :: is =>
    match workerStep engine rq i with
    | .error p => .error p
    | .ok rq2 => workerRun engine rq2 is

/-- The collector thread state: the done-counter
`res._n_finished_threads` and the items successfully sent on the
output channel (`res.tx`), oldest first. -/
structure CollectorSt (O : Type) where
  counter : Nat
  sent : List (WorkQueue (O × Nat))
deriving DecidableEq, Repr

/-- The collector thread of `_map_batch` (lib.rs lines 798-839)
consuming the results queue in order; `chanOpen` tells whether the
caller still holds the receiving end of the output channel. On `Done`:
increment the counter; when it reaches `n`, send `Finished` with
`.unwrap()` (line 813 — a closed channel panics) and break, leaving the
rest of the queue unconsumed. On `Result`: forward on the channel;
when the send fails (caller abandoned the batch) log and break at once
(lines 822-825), leaving the rest of the queue unconsumed. Other
variants are logged and skipped (lines 828-830). An exhausted queue
stands for the thread blocking forever in its polling sleep (lines
833-835). Returns the final state and the unconsumed queue suffix. -/
def collectorRun (n : Nat) (chanOpen : Bool) :
    CollectorSt O → List (WorkQueue (O × Nat)) →
    Except Panic (CollectorSt O × List (WorkQueue (O × Nat)))
  | st, [] => .ok (st, [])
  | st, item :: rest =>
    match item with
    | .Done =>
      let c := st.counter + 1
      if c = n then
        if chanOpen then .ok (⟨c, st.sent ++ [.Finished]⟩, rest)
        else .error .panic
      else collectorRun n chanOpen ⟨c, st.sent⟩ rest
    | .Result r =>
      if chanOpen then
        collectorRun n chanOpen ⟨st.counter, st.sent ++ [.Result r]⟩ rest
      else .ok (st, rest)
    | _ => collectorRun n chanOpen st rest

/-- Removal of the first entry keyed `id` from the pending-metadata
store, modelling `self.data.remove(&id_num)`
(lib.rs line 978): `none` when the key is absent. -/
def storeRemove : List (Nat × Metadata) → Nat →
    Option (Metadata × List (Nat × Metadata))
  | [], _ => none
  | (k, v) :: rest, id =>
    if k = id then some (v, rest)
    else
      match storeRemove rest id with
      | none => none
      | some (m, rest2) => some (m, (k, v) :: rest2)

/-- The pull loop of `AlignmentBatchResultIter::__next__` (lib.rs
lines 972-991) consuming the output channel contents in order.
`Finished` ends the sequence cleanly; a `Result (out, id)` removes id
from the store with `.unwrap()` (line 978 — absence is a panic) and
yields; an exhausted channel models the receiver error path (channel
closed, lines 986-989), which also just ends the sequence; any other
variant ends the sequence (lines 981-984). Returns the deliveries as
(id, output, metadata) triples (the Python caller sees only the
(output, metadata) pair; the id is the internal correlation id),
the final store, and whether `Finished` was seen. -/
def iterRun : List (Nat × Metadata) → List (WorkQueue (O × Nat)) →
    Except Panic (List (Nat × O × Metadata) × List (Nat × Metadata) × Bool)
  | store, [] => .ok ([], store, false)
  | store, item :: rest =>
    match item with
    | .Finished => .ok ([], store, true)
    | .Result (out, id) =>
      match storeRemove store id with
      | none => .error .panic
      | some (md, store2) =>
        match iterRun store2 rest with
        | .error p => .error p
        | .ok (ds, st3, fin) => .ok ((id, out, md) :: ds, st3, fin)
    | _ => .ok ([], store, false)

/-- Everything observable once a batch has run to completion under the
sequential schedule. -/
structure BatchOutcome (O : Type) where
  deliveries : List (Nat × O × Metadata)
  finalStore : List (Nat × Metadata)
  finished : Bool
  rqLeft : List (WorkQueue (O × Nat))
deriving DecidableEq, Repr

/-- Outcome of one whole `map_batch` call: `raised e` models the
Python exception `e` propagating out of `map_batch` — the
`AlignmentBatchResultIter` is dropped before the caller ever sees it,
so nothing is delivered; `panicked` models an internal `.unwrap()`
panic; `completed` carries the observable outcome. -/
inductive RunResult (O : Type) where
  | raised (e : PyError)
  | panicked
  | completed (out : BatchOutcome O)
deriving DecidableEq, Repr

/-- One whole `map_batch` call under the sequential schedule: dispatch
(including the `n_threads == 0` check and the `Done` sentinels), then
the worker pool drains the work queue, then the collector (with a
fresh zero counter, lib.rs line 956) drains the results queue, then
the result iterator drains the output channel against the
pending-metadata store filled at dispatch time. `wq0` and `rq0` are
the `Aligner`-owned shared queues, and `chanOpen` whether the caller
keeps the iterator alive. -/
def runBatch (engine : String → Option O) (nThreads : Nat) (backOff : Bool)
    (wq0 : ArrayQueue (WorkQueue (Nat × String)))
    (rq0 : ArrayQueue (WorkQueue (O × Nat))) (chanOpen : Bool)
    (records : List Record) : RunResult O :=
  match mapBatchDispatch nThreads backOff wq0 records with
  | .err e _ => .raised e
  | .panicked _ => .panicked
  | .ok st =>
    match workerRun engine rq0 st.wq.items with
    | .error _ => .panicked
    | .ok rq =>
      match collectorRun nThreads chanOpen ⟨0, []⟩ rq.items with
      | .error _ => .panicked
      | .ok (cst, rqLeft) =>
        match iterRun st.store cst.sent with
        | .error _ => .panicked
        | .ok (ds, finalStore, fin) => .completed ⟨ds, finalStore, fin, rqLeft⟩

/-- The correlation ids delivered to the caller by a `map_batch` call
(empty when the call raised or panicked: the iterator never reaches
the caller in those cases). -/
def RunResult.deliveredIds : RunResult O → List Nat
  | .completed out => out.deliveries.map fun d => d.1
  | _ => []

/-- The queue-owning part of the `Aligner` built by `Aligner::py_new`
(lib.rs lines 418-431): threading disabled (`n_threads: 0`), a work
queue of capacity 50000 and a results queue of capacity 50000 (both
line 429-430), created once per `Aligner` and shared by every
subsequent batch through `Arc::clone`. -/
structure AlignerQueues where
  nThreads : Nat
  workQueue : ArrayQueue (WorkQueue (Nat × String))
  resultsQueue : ArrayQueue (WorkQueue (List Nat × Nat))
deriving DecidableEq, Repr

/-- `Aligner::py_new`, restricted to the pipeline state it creates. -/
def mkAligner : AlignerQueues :=
  { nThreads := 0
    workQueue := ⟨50000, []⟩
    resultsQueue := ⟨50000, []⟩ }

/-- The `AlignmentBatchResultIter` state built by
`AlignmentBatchResultIter::new` (lib.rs lines 948-958): a fresh
bounded output channel of capacity 20000 with nothing sent yet, an
empty metadata store, and a zeroed thread count and done-counter. -/
structure BatchResultIter (O : Type) where
  chanCap : Nat
  chanSent : List (WorkQueue (O × Nat))
  data : List (Nat × Metadata)
  nThreadsField : Nat
  nFinishedThreads : Nat
deriving DecidableEq, Repr

/-- `AlignmentBatchResultIter::new`. -/
def BatchResultIter.new : BatchResultIter O :=
  { chanCap := 20000
    chanSent := []
    data := []
    nThreadsField := 0
    nFinishedThreads := 0 }

/-- The "seq" string of a record, defaulting to `""` when the record
has no well-formed "seq" field (only used on records that do). -/
def recSeq : Record → String
  | none => ""
  | some fields =>
    match lookupField fields "seq" with
    | some (.str s) => s
    | _ => ""

/-- Whether a record is accepted by the dispatcher: a dict whose
"seq" field is present and is a string. -/
def isGood : Record → Bool
  | none => false
  | some fields =>
    match lookupField fields "seq" with
    | some (.str _) => true
    | _ => false

/-- The shape of a record that makes the dispatcher abort with the
given error: not mapping-like (`malformedRecord`) or a dict with no
"seq" key (`missingField`). -/
def badShape (r : Record) (e : PyError) : Prop :=
  (r = none ∧ e = PyError.malformedRecord) ∨
  (∃ fields, r = some fields ∧ lookupField fields "seq" = none ∧
    e = PyError.missingField)

/-- The work items a fully successful dispatch of `rs` starting at
correlation id `id0` pushes, in order. -/
def worksFor : Nat → List Record → List (WorkQueue (Nat × String))
  | _, [] => []
  | id0, r :: rs => .Work (id0, recSeq r) :: worksFor (id0 + 1) rs

/-- The pending-metadata entries such a dispatch inserts, in insertion
order (the store itself holds them most recent first). -/
def metasFor : Nat → List Record → List (Nat × Metadata)
  | _, [] => []
  | id0, r :: rs => (id0, r.getD []) :: metasFor (id0 + 1) rs

/-- The keys of the pending-metadata store. -/
def storeIds (store : List (Nat × Metadata)) : List Nat :=
  store.map fun p => p.1

/-- The correlation ids of the `Work` items in a queue, in order. -/
def workIds : List (WorkQueue (Nat × String)) → List Nat
  | [] => []
  | .Work (id, _) :: rest => id :: workIds rest
  | _ :: rest => workIds rest

/-- The correlation ids of the `Result` items in a queue, in order. -/
def resIds {O : Type} : List (WorkQueue (O × Nat)) → List Nat
  | [] => []
  | .Result (_, id) :: rest => id :: resIds rest
  | _ :: rest => resIds rest

/-- Whether a queue item is a `Result`. -/
def isResultItem {T : Type} : WorkQueue T → Bool
  | .Result _ => true
  | _ => false

/-- The sleeps a run of `fuel` consecutive failed retries performs,
starting from `d` milliseconds and doubling each time. -/
def doublingSleeps : Nat → Nat → List Nat
  | 0, _ => []
  | f + 1, d => d :: doublingSleeps f (d * 2)

/-- C9: submitting a batch when the configured worker count is 0
(threading never enabled) fails with the configuration error,
synchronously from the submission call, with the work queue left
exactly as it was — no work item is ever pushed. -/
theorem c9_zero_workers_rejected {O : Type} (engine : String → Option O)
    (backOff : Bool) (wq0 : ArrayQueue (WorkQueue (Nat × String)))
    (rq0 : ArrayQueue (WorkQueue (O × Nat))) (chanOpen : Bool)
    (records : List Record) :
    mapBatchDispatch 0 backOff wq0 records =
      .err .configurationError ⟨[], wq0, []⟩ ∧
    runBatch engine 0 backOff wq0 rq0 chanOpen records =
      .raised .configurationError := by
  constructor
  · simp [mapBatchDispatch]
  · simp [runBatch, mapBatchDispatch]

/-- C10: a worker publishing to a full results queue panics, both when
pushing a `Done` sentinel and when pushing a successful alignment
result — the push is non-blocking and its failure is unwrapped, so the
error branch must be unreachable for the pipeline to be safe. -/
theorem c10_worker_panics_on_full_results_queue {O : Type}
    (engine : String → Option O) (rq : ArrayQueue (WorkQueue (O × Nat)))
    (id : Nat) (seq : String) (out : O)
    (hfull : rq.cap ≤ rq.items.length) (hout : engine seq = some out) :
    workerStep engine rq .Done = .error .panic ∧
    workerStep engine rq (.Work (id, seq)) = .error .panic := by
  have hnlt : ¬ rq.items.length < rq.cap := Nat.not_lt.mpr hfull
  constructor
  · simp [workerStep, ArrayQueue.push, hnlt]
  · simp [workerStep, hout, ArrayQueue.push, hnlt]

/-- Witness for C10 on a concrete full queue of capacity 0. -/
theorem c10_worker_panics_witness :
    workerStep (fun _ => some (0 : Nat)) (⟨0, []⟩ : ArrayQueue (WorkQueue (Nat × Nat)))
      .Done = .error .panic ∧
    workerStep (fun _ => some (0 : Nat)) (⟨0, []⟩ : ArrayQueue (WorkQueue (Nat × Nat)))
      (.Work (3, "ACGT")) = .error .panic :=
  c10_worker_panics_on_full_results_queue (fun _ => some 0) ⟨0, []⟩ 3 "ACGT" 0
    (by decide) rfl

/-- C7 counterexample: the results queue created by `Aligner::py_new`
has capacity 50000, not the 20000 stated by the claim (20000 is the
capacity of the output channel, a different structure). -/
theorem c7_counterexample :
    mkAligner.resultsQueue.cap = 50000 ∧ mkAligner.resultsQueue.cap ≠ 20000 := by
  decide

/-- C7 amended: the Work Queue and Results Queue are bounded FIFOs of
capacity 50000 each; the 20000 capacity belongs to the Output Channel
created by `AlignmentBatchResultIter::new`. Pushing appends at the
back when there is room and rejects the element when full; popping
takes the oldest element. -/
theorem c7_amended_capacities :
    mkAligner.workQueue.cap = 50000 ∧
    mkAligner.resultsQueue.cap = 50000 ∧
    (BatchResultIter.new (O := Nat)).chanCap = 20000 ∧
    (∀ (c : Nat) (xs : List Nat) (x : Nat),
      (ArrayQueue.mk c xs).push x =
        if xs.length < c then .ok ⟨c, xs ++ [x]⟩ else .error x) ∧
    (∀ (c x : Nat) (xs : List Nat),
      (ArrayQueue.mk c (x :: xs)).pop = some (x, ⟨c, xs⟩)) :=
  ⟨rfl, rfl, rfl, fun _ _ _ => rfl, fun _ _ _ => rfl⟩

/-- C1 counterexample: with the output channel closed and the results
queue holding a `Result` followed by the single worker's `Done`, the
collector pops only the `Result`, fails to forward it, and breaks: the
`Done` token is left in the queue unobserved (counter stays 0), so it
does not keep popping until all N `Done` tokens are seen. -/
theorem c1_counterexample :
    collectorRun (O := Nat) 1 false ⟨0, []⟩ [.Result (5, 0), .Done] =
      .ok (⟨0, []⟩, [.Done]) := rfl

/-- C1 amended: upon a failed forward of a `Result` (output channel
closed because the caller abandoned the batch) the collector stops
consuming the results queue entirely — it breaks out of its loop at
once, leaving every remaining item, `Done` tokens included,
unconsumed, so a worker facing a full results queue is not protected. -/
theorem c1_amended_collector_stops {O : Type} (n : Nat) (st : CollectorSt O)
    (r : O × Nat) (rest : List (WorkQueue (O × Nat))) :
    collectorRun n false st (.Result r :: rest) = .ok (st, rest) := rfl

/-- A push onto a full queue returns the rejected element. -/
theorem ArrayQueue.push_full {α : Type} (q : ArrayQueue α) (x : α)
    (hfull : q.cap ≤ q.items.length) : q.push x = .error x := by
  simp [ArrayQueue.push, Nat.not_lt.mpr hfull]

/-- On a queue that stays full, the backoff loop performs all its
remaining retries, sleeping with doubled durations after each, and
returns the queue unchanged with the attempts counter exhausted. -/
theorem backoffGo_full {α : Type} (q : ArrayQueue α) (x : α)
    (hfull : q.cap ≤ q.items.length) :
    ∀ (fuel a d : Nat), backoffGo q x fuel a d = (q, doublingSleeps fuel d, a + fuel) := by
  intro fuel
  induction fuel with
  | zero => intro a d; simp [backoffGo, doublingSleeps]
  | succ f ih =>
    intro a d
    simp only [backoffGo, ArrayQueue.push_full q x hfull, ih (a + 1) (d * 2),
      doublingSleeps]
    have h2 : a + 1 + f = a + (f + 1) := by omega
    rw [h2]

/-- C3 counterexample: with the work queue full (here capacity 0 for
concreteness) and backoff enabled, the push of the work item for
correlation id 5 fails, the six retries fail with sleeps of 50, 100,
200, 400, 800 and 1600 ms — and the dispatcher then returns
successfully, dropping the item: it does not raise `QueueFull` after
the last attempt, so dispatch continues with the next record. -/
theorem c3_counterexample :
    pushWork true ⟨0, []⟩ 5 (.Work (5, "A")) =
      .ok (⟨0, []⟩, [50, 100, 200, 400, 800, 1600]) := rfl

/-- C3 amended: in backoff mode a failed push is retried up to 6 times
with delays doubling from 50 ms (50, 100, 200, 400, 800, 1600 ms);
if the push still fails after the last attempt the dispatcher logs an
internal error and carries on without raising, silently dropping the
work item. `QueueFull` (naming the offending id) is raised only in
fail-fast mode. -/
theorem c3_amended_backoff_never_raises
    (q : ArrayQueue (WorkQueue (Nat × String))) (id : Nat)
    (x : WorkQueue (Nat × String)) (hfull : q.cap ≤ q.items.length) :
    pushWork true q id x = .ok (q, [50, 100, 200, 400, 800, 1600]) ∧
    pushWork false q id x = .error (.queueFull id) := by
  have hp := ArrayQueue.push_full q x hfull
  constructor
  · simp [pushWork, hp, backoffRetry, backoffGo_full q x hfull, doublingSleeps]
  · simp [pushWork, hp]

/-- Witness for C3 amended on a concrete full queue of capacity 0. -/
theorem c3_amended_witness :
    pushWork true ⟨0, []⟩ 7 (.Work (7, "ACGT")) =
      .ok (⟨0, []⟩, [50, 100, 200, 400, 800, 1600]) ∧
    pushWork false ⟨0, []⟩ 7 (.Work (7, "ACGT")) = .error (.queueFull 7) :=
  c3_amended_backoff_never_raises ⟨0, []⟩ 7 (.Work (7, "ACGT")) (by decide)

/-- A successful push appends the element at the back. -/
theorem ArrayQueue.push_ok {α : Type} {q q2 : ArrayQueue α} {x : α}
    (h : q.push x = .ok q2) : q2 = ⟨q.cap, q.items ++ [x]⟩ := by
  unfold ArrayQueue.push at h
  split at h
  · cases h; rfl
  · cases h

/-- The backoff loop either leaves the queue unchanged or finally
appends the retried element. -/
theorem backoffGo_fst {α : Type} (q : ArrayQueue α) (x : α) :
    ∀ (fuel a d : Nat),
      (backoffGo q x fuel a d).1 = q ∨
      (backoffGo q x fuel a d).1.items = q.items ++ [x] := by
  intro fuel
  induction fuel with
  | zero => intro a d; left; rfl
  | succ f ih =>
    intro a d
    cases hpush : q.push x with
    | ok q2 =>
      right
      simp only [backoffGo, hpush]
      rw [ArrayQueue.push_ok hpush]
    | error e =>
      simp only [backoffGo, hpush]
      exact ih (a + 1) (d * 2)

/-- A successful `pushWork` leaves the queue unchanged (item dropped
after exhausted backoff) or appends exactly the pushed item. -/
theorem pushWork_items {b : Bool} {q q2 : ArrayQueue (WorkQueue (Nat × String))}
    {id : Nat} {x : WorkQueue (Nat × String)} {sl : List Nat}
    (h : pushWork b q id x = .ok (q2, sl)) :
    q2.items = q.items ∨ q2.items = q.items ++ [x] := by
  unfold pushWork at h
  cases hpush : q.push x with
  | ok q3 =>
    rw [hpush] at h
    cases h
    right
    rw [ArrayQueue.push_ok hpush]
  | error e =>
    rw [hpush] at h
    cases b with
    | false => simp at h
    | true =>
      simp only [if_pos] at h
      cases h
      rcases backoffGo_fst q e 6 0 50 with h1 | h1
      · left; rw [backoffRetry, h1]
      · right
        have hx : e = x := by
          have := hpush
          unfold ArrayQueue.push at this
          split at this
          · cases this
          · cases this; rfl
        rw [backoffRetry, h1, hx]

/-- `doneCount` distributes over append. -/
theorem doneCount_append {T : Type} (xs ys : List (WorkQueue T)) :
    doneCount (xs ++ ys) = doneCount xs + doneCount ys := by
  simp [doneCount, List.filter_append]

/-- The dispatch loop pushes only `Work` items, never a `Done`
sentinel: the number of `Done` sentinels in the work queue is
unchanged by it, whatever the outcome. -/
theorem dispatchFrom_doneCount (b : Bool) :
    ∀ (rs : List Record) (st : DispatchSt) (id0 : Nat),
      doneCount ((dispatchFrom b st id0 rs).1.wq.items) = doneCount st.wq.items := by
  intro rs
  induction rs with
  | nil => intro st id0; rfl
  | cons r rs ih =>
    intro st id0
    cases r with
    | none => rfl
    | some fields =>
      cases hlk : lookupField fields "seq" with
      | none => simp [dispatchFrom, hlk]
      | some v =>
        cases v with
        | other t => simp [dispatchFrom, hlk]
        | str seq =>
          simp only [dispatchFrom, hlk]
          cases hpw : pushWork b st.wq id0 (.Work (id0, seq)) with
          | error e => simp
          | ok p =>
            obtain ⟨wq2, sl⟩ := p
            simp only []
            rw [ih]
            simp only []
            rcases pushWork_items hpw with h1 | h1
            · rw [h1]
            · rw [h1, doneCount_append]
              rfl

/-- Pushing the sentinels appends exactly `n` `Done` items when it
succeeds. -/
theorem pushDones_doneCount :
    ∀ (n : Nat) (q q2 : ArrayQueue (WorkQueue (Nat × String))),
      pushDones q n = .ok q2 → doneCount q2.items = doneCount q.items + n := by
  intro n
  induction n with
  | zero => intro q q2 h; cases h; rfl
  | succ m ih =>
    intro q q2 h
    unfold pushDones at h
    cases hpush : q.push .Done with
    | error e => rw [hpush] at h; cases h
    | ok q3 =>
      rw [hpush] at h
      have h3 := ih q3 q2 h
      rw [h3, ArrayQueue.push_ok hpush]
      simp only [doneCount_append]
      have : doneCount (T := Nat × String) [.Done] = 1 := rfl
      rw [this]
      omega

/-- C4 counterexample: with 2 workers and a batch whose only record
lacks the "seq" key, dispatch aborts with `missingField` and pushes
zero `Done` sentinels onto the work queue — not the 2 the claim
requires after an abort, so each worker would wait forever for its
termination signal. -/
theorem c4_counterexample :
    mapBatchDispatch 2 true ⟨10, []⟩ [some [("x", PyVal.other 0)]] =
      .err .missingField ⟨[(0, [("x", PyVal.other 0)])], ⟨10, []⟩, []⟩ ∧
    doneCount (mapBatchDispatch 2 true ⟨10, []⟩
      [some [("x", PyVal.other 0)]]).wqOf.items = 0 := by
  constructor
  · rfl
  · rfl

/-- C4 amended: exactly N `Done` sentinels (one per worker) are pushed
after the last record only when dispatch runs to completion; after a
dispatch abort (malformed record, missing "seq", or fail-fast queue
overflow) no `Done` sentinel is pushed at all. -/
theorem c4_amended_done_sentinels (n : Nat) (b : Bool)
    (wq0 : ArrayQueue (WorkQueue (Nat × String))) (records : List Record) :
    (∀ st, mapBatchDispatch n b wq0 records = .ok st →
      doneCount st.wq.items = doneCount wq0.items + n) ∧
    (∀ e st, mapBatchDispatch n b wq0 records = .err e st →
      doneCount st.wq.items = doneCount wq0.items) := by
  constructor
  · intro st h
    unfold mapBatchDispatch at h
    by_cases hn : n = 0
    · rw [if_pos hn] at h; cases h
    · rw [if_neg hn] at h
      cases hd : dispatchFrom b ⟨[], wq0, []⟩ 0 records with
      | mk st1 e? =>
        rw [hd] at h
        cases e? with
        | some e => simp at h
        | none =>
          simp only [] at h
          cases hpd : pushDones st1.wq n with
          | error p => rw [hpd] at h; cases h
          | ok wq2 =>
            rw [hpd] at h
            cases h
            have h1 := pushDones_doneCount n st1.wq wq2 hpd
            have h2 := dispatchFrom_doneCount b records ⟨[], wq0, []⟩ 0
            rw [hd] at h2
            simp only [] at h2 ⊢
            rw [h1, h2]
  · intro e st h
    unfold mapBatchDispatch at h
    by_cases hn : n = 0
    · rw [if_pos hn] at h
      cases h
      rfl
    · rw [if_neg hn] at h
      cases hd : dispatchFrom b ⟨[], wq0, []⟩ 0 records with
      | mk st1 e? =>
        rw [hd] at h
        cases e? with
        | some e2 =>
          simp only [] at h
          cases h
          have h2 := dispatchFrom_doneCount b records ⟨[], wq0, []⟩ 0
          rw [hd] at h2
          exact h2
        | none =>
          simp only [] at h
          cases hpd : pushDones st1.wq n with
          | error p => rw [hpd] at h; cases h
          | ok wq2 => rw [hpd] at h; cases h

/-- Witness for C4 amended: a successful one-record dispatch with 2
workers ends with 2 sentinels; the aborting dispatch of the
counterexample ends with 0. -/
theorem c4_amended_witness :
    doneCount (⟨[(0, [("seq", PyVal.str "A")])],
        ⟨10, [.Work (0, "A"), .Done, .Done]⟩, []⟩ : DispatchSt).wq.items =
      doneCount (⟨10, []⟩ : ArrayQueue (WorkQueue (Nat × String))).items + 2 ∧
    doneCount (⟨[(0, [("x", PyVal.other 0)])], ⟨10, []⟩, []⟩ : DispatchSt).wq.items =
      doneCount (⟨10, []⟩ : ArrayQueue (WorkQueue (Nat × String))).items :=
  ⟨(c4_amended_done_sentinels 2 true ⟨10, []⟩ [some [("seq", PyVal.str "A")]]).1
      _ (by rfl),
   (c4_amended_done_sentinels 2 true ⟨10, []⟩ [some [("x", PyVal.other 0)]]).2
      .missingField _ (by rfl)⟩

/-- C8 counterexample: a work item left over from before a submission
is still at the front of the work queue when the new submission's
sentinel is pushed behind it — `map_batch` reuses the `Aligner`-owned
queue (`Arc::clone`, lib.rs line 844); it does not create a fresh one
per submission as the claim states for all five structures. -/
theorem c8_counterexample :
    mapBatchDispatch 1 true ⟨50000, [.Work (99, "OLD")]⟩ [] =
      .ok ⟨[], ⟨50000, [.Work (99, "OLD"), .Done]⟩, []⟩ := rfl

/-- Pushing sentinels only appends. -/
theorem pushDones_extend :
    ∀ (n : Nat) (q q2 : ArrayQueue (WorkQueue (Nat × String))),
      pushDones q n = .ok q2 → ∃ tail, q2.items = q.items ++ tail := by
  intro n
  induction n with
  | zero => intro q q2 h; cases h; exact ⟨[], by simp⟩
  | succ m ih =>
    intro q q2 h
    unfold pushDones at h
    cases hpush : q.push .Done with
    | error e => rw [hpush] at h; cases h
    | ok q3 =>
      rw [hpush] at h
      obtain ⟨tail, htail⟩ := ih q3 q2 h
      refine ⟨.Done :: tail, ?_⟩
      rw [htail, ArrayQueue.push_ok hpush]
      simp

/-- The dispatch loop only appends to the work queue: whatever state
the shared queue was in before the submission survives at its front. -/
theorem dispatchFrom_extend (b : Bool) :
    ∀ (rs : List Record) (st : DispatchSt) (id0 : Nat),
      ∃ tail, (dispatchFrom b st id0 rs).1.wq.items = st.wq.items ++ tail := by
  intro rs
  induction rs with
  | nil => intro st id0; exact ⟨[], by simp [dispatchFrom]⟩
  | cons r rs ih =>
    intro st id0
    cases r with
    | none => exact ⟨[], by simp [dispatchFrom]⟩
    | some fields =>
      cases hlk : lookupField fields "seq" with
      | none => exact ⟨[], by simp [dispatchFrom, hlk]⟩
      | some v =>
        cases v with
        | other t => exact ⟨[], by simp [dispatchFrom, hlk]⟩
        | str seq =>
          simp only [dispatchFrom, hlk]
          cases hpw : pushWork b st.wq id0 (.Work (id0, seq)) with
          | error e => exact ⟨[], by simp⟩
          | ok p =>
            obtain ⟨wq2, sl⟩ := p
            simp only []
            obtain ⟨tail, htail⟩ :=
              ih ⟨(id0, fields) :: st.store, wq2, st.sleeps ++ sl⟩ (id0 + 1)
            rcases pushWork_items hpw with h1 | h1
            · exact ⟨tail, by rw [htail]; simp only []; rw [h1]⟩
            · refine ⟨.Work (id0, seq) :: tail, ?_⟩
              rw [htail]
              simp only []
              rw [h1]
              simp

/-- C8 amended: the pending-metadata store, the output channel and the
done-counter are created fresh by `AlignmentBatchResultIter::new` for
each submission; the work queue (and likewise the results queue, see
`mkAligner`) is created once per `Aligner` and shared across batches —
a submission only appends to it, preserving whatever it already
contained — as is the worker pool. -/
theorem c8_amended_shared_queues :
    (BatchResultIter.new (O := Nat)).data = [] ∧
    (BatchResultIter.new (O := Nat)).chanSent = [] ∧
    (BatchResultIter.new (O := Nat)).nFinishedThreads = 0 ∧
    ∀ (n : Nat) (b : Bool) (wq0 : ArrayQueue (WorkQueue (Nat × String)))
      (records : List Record),
      ∃ tail, (mapBatchDispatch n b wq0 records).wqOf.items = wq0.items ++ tail := by
  refine ⟨rfl, rfl, rfl, ?_⟩
  intro n b wq0 records
  unfold mapBatchDispatch
  by_cases hn : n = 0
  · rw [if_pos hn]
    exact ⟨[], by simp [DispatchResult.wqOf]⟩
  · rw [if_neg hn]
    cases hd : dispatchFrom b ⟨[], wq0, []⟩ 0 records with
    | mk st1 e? =>
      obtain ⟨tail, htail⟩ := dispatchFrom_extend b records ⟨[], wq0, []⟩ 0
      rw [hd] at htail
      cases e? with
      | some e => exact ⟨tail, htail⟩
      | none =>
        simp only []
        cases hpd : pushDones st1.wq n with
        | error p => exact ⟨tail, htail⟩
        | ok wq2 =>
          obtain ⟨tail2, htail2⟩ := pushDones_extend n st1.wq wq2 hpd
          refine ⟨tail ++ tail2, ?_⟩
          simp only [DispatchResult.wqOf, htail2]
          simp only [] at htail
          rw [htail, List.append_assoc]

/-- C2 counterexample: a batch whose first record is good and whose
second lacks "seq" makes the submission raise `missingField` — and
because `map_batch` propagates the error, the
`AlignmentBatchResultIter` is never returned to the caller, so the
result of the first (correctly dispatched) record is never delivered,
contrary to the claim that records dispatched before the bad one have
their results delivered through the result iterator. -/
theorem c2_counterexample :
    runBatch (O := Nat) (fun s => some s.length) 1 true ⟨10, []⟩ ⟨10, []⟩ true
      [some [("seq", PyVal.str "AC"), ("ch", PyVal.other 7)],
        some [("ch", PyVal.other 8)]] = .raised .missingField ∧
    (runBatch (O := Nat) (fun s => some s.length) 1 true ⟨10, []⟩ ⟨10, []⟩ true
      [some [("seq", PyVal.str "AC"), ("ch", PyVal.other 7)],
        some [("ch", PyVal.other 8)]]).deliveredIds = [] := ⟨rfl, rfl⟩

/-- C6 counterexample: a completed batch (the `Finished` marker was
delivered, `finished = true`) whose only record the engine failed to
map leaves that record's entry in the pending-metadata store: the
store is not empty immediately after batch completion, because the
worker drops engine failures without ever producing the `Result` that
would remove the entry. -/
theorem c6_counterexample :
    runBatch (O := Nat) (fun _ => none) 1 true ⟨50000, []⟩ ⟨50000, []⟩ true
      [some [("seq", PyVal.str "A")]] =
      .completed ⟨[], [(0, [("seq", PyVal.str "A")])], true, []⟩ := rfl

/-- A good record is a dict with a string "seq" field. -/
theorem isGood_elim {r : Record} (h : isGood r = true) :
    ∃ fields s, r = some fields ∧ lookupField fields "seq" = some (.str s) := by
  cases r with
  | none => simp [isGood] at h
  | some fields =>
    cases hlk : lookupField fields "seq" with
    | none => simp [isGood, hlk] at h
    | some v =>
      cases v with
      | str s => exact ⟨fields, s, rfl, hlk⟩
      | other t => simp [isGood, hlk] at h

/-- Closed form of the dispatch loop on a run of good records that
fits in the work queue: every record's metadata is inserted (most
recent first) and every work item is pushed in order, with no sleeps
and no error. -/
theorem dispatchFrom_good (b : Bool) :
    ∀ (rs : List Record) (st : DispatchSt) (id0 : Nat),
      (∀ r ∈ rs, isGood r = true) →
      st.wq.items.length + rs.length ≤ st.wq.cap →
      dispatchFrom b st id0 rs =
        (⟨(metasFor id0 rs).reverse ++ st.store,
          ⟨st.wq.cap, st.wq.items ++ worksFor id0 rs⟩, st.sleeps⟩, none) := by
  intro rs
  induction rs with
  | nil =>
    intro st id0 _ _
    simp [dispatchFrom, metasFor, worksFor]
  | cons r rs ih =>
    intro st id0 hg hcap
    obtain ⟨fields, s, hr, hlk⟩ := isGood_elim (hg r (List.mem_cons_self r rs))
    subst hr
    have hlt : st.wq.items.length < st.wq.cap := by
      simp only [List.length_cons] at hcap
      omega
    have hpush : st.wq.push (.Work (id0, s)) =
        .ok ⟨st.wq.cap, st.wq.items ++ [.Work (id0, s)]⟩ := by
      simp [ArrayQueue.push, hlt]
    have hrec := ih ⟨(id0, fields) :: st.store,
        ⟨st.wq.cap, st.wq.items ++ [.Work (id0, s)]⟩, st.sleeps ++ []⟩ (id0 + 1)
      (fun r hr => hg r (List.mem_cons_of_mem _ hr))
      (by simp only [List.length_append, List.length_cons, List.length_nil]
            at hcap ⊢
          omega)
    simp only [dispatchFrom, hlk, pushWork, hpush, hrec]
    have hseq : recSeq (some fields) = s := by simp [recSeq, hlk]
    simp only [metasFor, worksFor, hseq, Option.getD, List.reverse_cons]
    rw [List.append_assoc ((metasFor (id0 + 1) rs).reverse)]
    simp [List.append_assoc]

/-- Composition of the dispatch loop over an append, given that the
first half dispatches without aborting. -/
theorem dispatchFrom_append (b : Bool) :
    ∀ (xs ys : List Record) (st st2 : DispatchSt) (id0 : Nat),
      dispatchFrom b st id0 xs = (st2, none) →
      dispatchFrom b st id0 (xs ++ ys) =
        dispatchFrom b st2 (id0 + xs.length) ys := by
  intro xs
  induction xs with
  | nil =>
    intro ys st st2 id0 h
    unfold dispatchFrom at h
    cases h
    simp
  | cons r xs ih =>
    intro ys st st2 id0 h
    cases r with
    | none => simp [dispatchFrom] at h
    | some fields =>
      cases hlk : lookupField fields "seq" with
      | none => simp [dispatchFrom, hlk] at h
      | some v =>
        cases v with
        | other t => simp [dispatchFrom, hlk] at h
        | str s =>
          simp only [dispatchFrom, hlk] at h ⊢
          cases hpw : pushWork b st.wq id0 (.Work (id0, s)) with
          | error e => rw [hpw] at h; simp at h
          | ok p =>
            obtain ⟨wq2, sl⟩ := p
            rw [hpw] at h
            simp only [List.cons_append] at h ⊢
            have hae : xs.append ys = xs ++ ys := rfl
            rw [hae, ih ys _ st2 (id0 + 1) h]
            have harith : id0 + 1 + xs.length = id0 + (some fields :: xs).length := by
              simp only [List.length_cons]
              omega
            rw [harith]

/-- C2 amended: a batch of good records followed by a bad one
(not mapping-like, or lacking "seq") makes the submission raise
`malformedRecord` or `missingField` respectively, aborting dispatch
immediately; the records dispatched before the bad one sit in the
work queue (so workers will still process them best-effort), but no
result of theirs is ever delivered to the caller: the submission call
raises instead of returning the result iterator. -/
theorem c2_amended_abort_keeps_earlier_work {O : Type}
    (engine : String → Option O) (n : Nat) (b : Bool) (cw : Nat)
    (goods : List Record) (bad : Record) (rest : List Record) (e : PyError)
    (rq0 : ArrayQueue (WorkQueue (O × Nat))) (chanOpen : Bool)
    (hn : n ≠ 0) (hg : ∀ r ∈ goods, isGood r = true)
    (hcap : goods.length ≤ cw) (hbad : badShape bad e) :
    (∃ st, mapBatchDispatch n b ⟨cw, []⟩ (goods ++ bad :: rest) = .err e st ∧
      st.wq.items = worksFor 0 goods) ∧
    runBatch engine n b ⟨cw, []⟩ rq0 chanOpen (goods ++ bad :: rest) =
      .raised e ∧
    (runBatch engine n b ⟨cw, []⟩ rq0 chanOpen
      (goods ++ bad :: rest)).deliveredIds = [] := by
  have hdg := dispatchFrom_good b goods ⟨[], ⟨cw, []⟩, []⟩ 0 hg (by simpa)
  have hda := dispatchFrom_append b goods (bad :: rest) ⟨[], ⟨cw, []⟩, []⟩ _ 0 hdg
  have hstep : ∃ st, dispatchFrom b
      ⟨(metasFor 0 goods).reverse ++ [], ⟨cw, [] ++ worksFor 0 goods⟩, []⟩
      (0 + goods.length) (bad :: rest) = (st, some e) ∧
      st.wq.items = worksFor 0 goods := by
    rcases hbad with ⟨hb, he⟩ | ⟨fields, hb, hlk, he⟩
    · subst hb; subst he
      exact ⟨⟨(metasFor 0 goods).reverse ++ [], ⟨cw, [] ++ worksFor 0 goods⟩, []⟩,
        rfl, rfl⟩
    · subst hb; subst he
      refine ⟨⟨(0 + goods.length, fields) :: ((metasFor 0 goods).reverse ++ []),
        ⟨cw, [] ++ worksFor 0 goods⟩, []⟩, ?_, rfl⟩
      simp [dispatchFrom, hlk]
  obtain ⟨st, hst, hwq⟩ := hstep
  have hmbd : mapBatchDispatch n b ⟨cw, []⟩ (goods ++ bad :: rest) = .err e st := by
    unfold mapBatchDispatch
    rw [if_neg hn, hda, hst]
  refine ⟨⟨st, hmbd, hwq⟩, ?_, ?_⟩
  · simp [runBatch, hmbd]
  · simp [runBatch, hmbd, RunResult.deliveredIds]

/-- Witness for C2 amended: one good record, then a dict without
"seq"; the call raises `missingField`, the good record's work item is
in the queue, and nothing is delivered. -/
theorem c2_amended_witness :
    (∃ st, mapBatchDispatch 1 true ⟨10, []⟩
        [some [("seq", PyVal.str "AC"), ("ch", PyVal.other 7)],
          some [("ch", PyVal.other 8)]] = .err .missingField st ∧
      st.wq.items = worksFor 0 [some [("seq", PyVal.str "AC"), ("ch", PyVal.other 7)]]) ∧
    runBatch (O := Nat) (fun s => some s.length) 1 true ⟨10, []⟩ ⟨10, []⟩ true
      [some [("seq", PyVal.str "AC"), ("ch", PyVal.other 7)],
        some [("ch", PyVal.other 8)]] = .raised .missingField ∧
    (runBatch (O := Nat) (fun s => some s.length) 1 true ⟨10, []⟩ ⟨10, []⟩ true
      [some [("seq", PyVal.str "AC"), ("ch", PyVal.other 7)],
        some [("ch", PyVal.other 8)]]).deliveredIds = [] :=
  c2_amended_abort_keeps_earlier_work (fun s => some s.length) 1 true 10
    [some [("seq", PyVal.str "AC"), ("ch", PyVal.other 7)]]
    (some [("ch", PyVal.other 8)]) [] .missingField ⟨10, []⟩ true
    (by decide) (by decide) (by decide)
    (Or.inr ⟨[("ch", PyVal.other 8)], rfl, rfl, rfl⟩)

/-- A successful removal found its entry in the store, returns a store
whose entries all come from the original, and deletes exactly the
first occurrence of the key. -/
theorem storeRemove_mem :
    ∀ (store : List (Nat × Metadata)) (id : Nat) (md : Metadata)
      (s2 : List (Nat × Metadata)), storeRemove store id = some (md, s2) →
      (id, md) ∈ store ∧ (∀ p ∈ s2, p ∈ store) ∧
      storeIds s2 = (storeIds store).erase id := by
  intro store
  induction store with
  | nil => intro id md s2 h; cases h
  | cons kv rest ih =>
    obtain ⟨k, v⟩ := kv
    intro id md s2 h
    unfold storeRemove at h
    by_cases hk : k = id
    · rw [if_pos hk] at h
      cases h
      subst hk
      refine ⟨List.mem_cons_self .., fun p hp => List.mem_cons_of_mem _ hp, ?_⟩
      simp [storeIds, List.erase_cons_head]
    · rw [if_neg hk] at h
      cases hrec : storeRemove rest id with
      | none => rw [hrec] at h; cases h
      | some p =>
        obtain ⟨m2, rest2⟩ := p
        rw [hrec] at h
        cases h
        obtain ⟨h1, h2, h3⟩ := ih id _ _ hrec
        refine ⟨List.mem_cons_of_mem _ h1, ?_, ?_⟩
        · intro p hp
          rcases List.mem_cons.mp hp with hp | hp
          · exact hp ▸ List.mem_cons_self ..
          · exact List.mem_cons_of_mem _ (h2 p hp)
        · simp only [storeIds, List.map_cons]
          rw [List.erase_cons_tail (by simpa using hk)]
          simp only [storeIds] at h3
          rw [h3]

/-- Removal succeeds exactly when the key is present. -/
theorem storeRemove_isSome :
    ∀ (store : List (Nat × Metadata)) (id : Nat),
      id ∈ storeIds store → ∃ md s2, storeRemove store id = some (md, s2) := by
  intro store
  induction store with
  | nil => intro id h; simp [storeIds] at h
  | cons kv rest ih =>
    obtain ⟨k, v⟩ := kv
    intro id h
    by_cases hk : k = id
    · exact ⟨v, rest, by simp [storeRemove, hk]⟩
    · have hmem : id ∈ storeIds rest := by
        simp only [storeIds, List.map_cons, List.mem_cons] at h
        rcases h with h | h
        · exact absurd h.symm hk
        · simpa [storeIds] using h
      obtain ⟨md, s2, hrec⟩ := ih id hmem
      exact ⟨md, (k, v) :: s2, by simp [storeRemove, hk, hrec]⟩

/-- Soundness of the result iterator: when the store keys are distinct,
every delivered (id, output, metadata) triple took its metadata from
the store entry for that id, and no id is delivered twice — each
delivery removes its entry, so a second `Result` with the same id
could never find it again. -/
theorem iterRun_sound {O : Type} :
    ∀ (sent : List (WorkQueue (O × Nat))) (store : List (Nat × Metadata))
      (ds : List (Nat × O × Metadata)) (st2 : List (Nat × Metadata)) (fin : Bool),
      (storeIds store).Nodup →
      iterRun store sent = .ok (ds, st2, fin) →
      (∀ d ∈ ds, (d.1, d.2.2) ∈ store) ∧ (ds.map fun d => d.1).Nodup := by
  intro sent
  induction sent with
  | nil =>
    intro store ds st2 fin hnd h
    cases h
    exact ⟨by simp, by simp⟩
  | cons item rest ih =>
    intro store ds st2 fin hnd h
    cases item with
    | Finished =>
      simp only [iterRun] at h
      cases h
      exact ⟨by simp, by simp⟩
    | Done =>
      simp only [iterRun] at h
      cases h
      exact ⟨by simp, by simp⟩
    | Work t =>
      simp only [iterRun] at h
      cases h
      exact ⟨by simp, by simp⟩
    | Result t =>
      obtain ⟨out, id⟩ := t
      cases hrem : storeRemove store id with
      | none => simp [iterRun, hrem] at h
      | some p =>
        obtain ⟨md, store2⟩ := p
        simp only [iterRun, hrem] at h
        cases hrec : iterRun store2 rest with
        | error p2 => rw [hrec] at h; cases h
        | ok trip =>
          obtain ⟨ds2, st3, fin2⟩ := trip
          rw [hrec] at h
          cases h
          obtain ⟨hmem, hsub, hids⟩ := storeRemove_mem store id md store2 hrem
          have hnd2 : (storeIds store2).Nodup := by
            rw [hids]; exact hnd.erase id
          obtain ⟨ihmem, ihnd⟩ := ih store2 ds2 _ _ hnd2 hrec
          constructor
          · intro d hd
            rcases List.mem_cons.mp hd with hd | hd
            · subst hd; exact hmem
            · exact hsub _ (ihmem d hd)
          · simp only [List.map_cons, List.nodup_cons]
            refine ⟨?_, ihnd⟩
            intro hmem2
            obtain ⟨d, hd, hdeq⟩ := List.mem_map.mp hmem2
            have hin : d.1 ∈ storeIds store2 :=
              List.mem_map.mpr ⟨(d.1, d.2.2), ihmem d hd, rfl⟩
            rw [hdeq, hids] at hin
            exact hnd.not_mem_erase hin

/-- The dispatch loop only inserts correct metadata: every store entry
(id, md) satisfies records[id] = dict md, ids stay below the running
correlation counter, and the store keys remain distinct — whatever the
outcome of the loop (aborts included). -/
theorem dispatchFrom_store (b : Bool) (records : List Record) :
    ∀ (rs : List Record) (st : DispatchSt) (id0 : Nat),
      records.drop id0 = rs →
      (∀ p ∈ st.store, records[p.1]? = some (some p.2)) →
      (∀ i ∈ storeIds st.store, i < id0) →
      (storeIds st.store).Nodup →
      (∀ p ∈ (dispatchFrom b st id0 rs).1.store,
        records[p.1]? = some (some p.2)) ∧
      (storeIds (dispatchFrom b st id0 rs).1.store).Nodup := by
  intro rs
  induction rs with
  | nil =>
    intro st id0 _ hmem _ hnd
    simp only [dispatchFrom]
    exact ⟨hmem, hnd⟩
  | cons r rs ih =>
    intro st id0 hdrop hmem hbound hnd
    have hid0 : records[id0]? = some r := by
      have := List.getElem?_drop records id0 0
      rw [hdrop] at this
      simpa using this.symm
    have hdrop2 : records.drop (id0 + 1) = rs := by
      have h1 : List.drop 1 (List.drop id0 records) = List.drop (id0 + 1) records :=
        List.drop_drop 1 id0 records
      rw [hdrop] at h1
      simpa using h1.symm
    have hmem2 : ∀ fields, r = some fields →
        ∀ p ∈ (id0, fields) :: st.store, records[p.1]? = some (some p.2) := by
      intro fields hr p hp
      rcases List.mem_cons.mp hp with hp | hp
      · subst hp; rw [hid0, hr]
      · exact hmem p hp
    have hnd2 : ∀ fields, (storeIds ((id0, fields) :: st.store)).Nodup := by
      intro fields
      simp only [storeIds, List.map_cons, List.nodup_cons]
      refine ⟨?_, hnd⟩
      intro hc
      exact absurd (hbound id0 hc) (by omega)
    cases r with
    | none =>
      simp only [dispatchFrom]
      exact ⟨hmem, hnd⟩
    | some fields =>
      cases hlk : lookupField fields "seq" with
      | none =>
        simp only [dispatchFrom, hlk]
        exact ⟨hmem2 fields rfl, hnd2 fields⟩
      | some v =>
        cases v with
        | other t =>
          simp only [dispatchFrom, hlk]
          exact ⟨hmem2 fields rfl, hnd2 fields⟩
        | str s =>
          simp only [dispatchFrom, hlk]
          cases hpw : pushWork b st.wq id0 (.Work (id0, s)) with
          | error e =>
            simp only []
            exact ⟨hmem2 fields rfl, hnd2 fields⟩
          | ok p =>
            obtain ⟨wq2, sl⟩ := p
            simp only []
            exact ih ⟨(id0, fields) :: st.store, wq2, st.sleeps ++ sl⟩ (id0 + 1)
              hdrop2 (hmem2 fields rfl)
              (by
                intro i hi
                simp only [storeIds, List.map_cons, List.mem_cons] at hi
                rcases hi with hi | hi
                · omega
                · exact Nat.lt_succ_of_lt (hbound i hi))
              (hnd2 fields)

/-- C5: for every batch that runs to completion, every delivered
correlation id lies in [0, M) where M is the batch size, each id is
delivered at most once, and the metadata delivered with id X is
exactly the dict supplied as the X-th input record (ids being assigned
0, 1, 2, … in strict input order by the dispatch loop). -/
theorem c5_ids_unique_metadata_exact {O : Type} (engine : String → Option O)
    (n : Nat) (b : Bool) (cw cr : Nat) (chanOpen : Bool)
    (records : List Record) (out : BatchOutcome O)
    (h : runBatch engine n b ⟨cw, []⟩ ⟨cr, []⟩ chanOpen records = .completed out) :
    (∀ d ∈ out.deliveries, d.1 < records.length ∧
      records[d.1]? = some (some d.2.2)) ∧
    (out.deliveries.map fun d => d.1).Nodup := by
  unfold runBatch at h
  cases hmbd : mapBatchDispatch n b ⟨cw, []⟩ records with
  | err e st => simp only [hmbd] at h; cases h
  | panicked st => simp only [hmbd] at h; cases h
  | ok st =>
    simp only [hmbd] at h
    cases hw : workerRun engine ⟨cr, []⟩ st.wq.items with
    | error p => simp only [hw] at h; cases h
    | ok rq =>
      simp only [hw] at h
      cases hc : collectorRun n chanOpen ⟨0, []⟩ rq.items with
      | error p => simp only [hc] at h; cases h
      | ok pr =>
        obtain ⟨cst, rqLeft⟩ := pr
        simp only [hc] at h
        cases hi : iterRun st.store cst.sent with
        | error p => simp only [hi] at h; cases h
        | ok trip =>
          obtain ⟨ds, fs, fin⟩ := trip
          simp only [hi] at h
          cases h
          have hstore : (∀ p ∈ st.store, records[p.1]? = some (some p.2)) ∧
              (storeIds st.store).Nodup := by
            unfold mapBatchDispatch at hmbd
            by_cases hn : n = 0
            · rw [if_pos hn] at hmbd; cases hmbd
            · rw [if_neg hn] at hmbd
              cases hd : dispatchFrom b ⟨[], ⟨cw, []⟩, []⟩ 0 records with
              | mk st1 e? =>
                rw [hd] at hmbd
                cases e? with
                | some e => simp at hmbd
                | none =>
                  simp only [] at hmbd
                  cases hpd : pushDones st1.wq n with
                  | error p => rw [hpd] at hmbd; cases hmbd
                  | ok wq2 =>
                    rw [hpd] at hmbd
                    cases hmbd
                    have := dispatchFrom_store b records records
                      ⟨[], ⟨cw, []⟩, []⟩ 0 (List.drop_zero records)
                      (by simp) (by simp [storeIds]) (by simp [storeIds])
                    rw [hd] at this
                    exact this
          obtain ⟨hsmem, hsnd⟩ := hstore
          obtain ⟨hdmem, hdnd⟩ := iterRun_sound cst.sent st.store ds fs fin hsnd hi
          refine ⟨?_, hdnd⟩
          intro d hd
          have hrec := hsmem _ (hdmem d hd)
          refine ⟨?_, hrec⟩
          exact (List.getElem?_eq_some.mp hrec).1

/-- Witness for C5 on a concrete completed two-record batch. -/
theorem c5_witness :
    (∀ d ∈ ([(0, 1, [("seq", PyVal.str "A")]),
        (1, 2, [("seq", PyVal.str "CG"), ("m", PyVal.other 3)])] :
          List (Nat × Nat × Metadata)),
      d.1 < ([some [("seq", PyVal.str "A")],
        some [("seq", PyVal.str "CG"), ("m", PyVal.other 3)]] : List Record).length ∧
      ([some [("seq", PyVal.str "A")],
        some [("seq", PyVal.str "CG"), ("m", PyVal.other 3)]] : List Record)[d.1]? =
        some (some d.2.2)) ∧
    (([(0, 1, [("seq", PyVal.str "A")]),
        (1, 2, [("seq", PyVal.str "CG"), ("m", PyVal.other 3)])] :
          List (Nat × Nat × Metadata)).map fun d => d.1).Nodup :=
  c5_ids_unique_metadata_exact (fun s => some s.length) 1 true 50000 50000 true
    [some [("seq", PyVal.str "A")],
      some [("seq", PyVal.str "CG"), ("m", PyVal.other 3)]]
    ⟨[(0, 1, [("seq", PyVal.str "A")]),
      (1, 2, [("seq", PyVal.str "CG"), ("m", PyVal.other 3)])], [], true, []⟩
    rfl

/-- A successful dispatch pushes one work item per record. -/
theorem worksFor_length :
    ∀ (id0 : Nat) (rs : List Record), (worksFor id0 rs).length = rs.length := by
  intro id0 rs
  induction rs generalizing id0 with
  | nil => rfl
  | cons r rs ih => simp [worksFor, ih]

/-- The work-item ids of a successful dispatch are consecutive from
the starting correlation id. -/
theorem workIds_worksFor :
    ∀ (id0 : Nat) (rs : List Record),
      workIds (worksFor id0 rs) = List.range' id0 rs.length := by
  intro id0 rs
  induction rs generalizing id0 with
  | nil => rfl
  | cons r rs ih =>
    simp only [worksFor, workIds, List.length_cons, ih (id0 + 1)]
    rw [List.range'_succ]

/-- Every element a successful dispatch pushes is a `Work` item. -/
theorem worksFor_shape :
    ∀ (id0 : Nat) (rs : List Record) (i : WorkQueue (Nat × String)),
      i ∈ worksFor id0 rs → ∃ id s, i = .Work (id, s) := by
  intro id0 rs
  induction rs generalizing id0 with
  | nil => intro i hi; simp [worksFor] at hi
  | cons r rs ih =>
    intro i hi
    rcases List.mem_cons.mp hi with hi | hi
    · exact ⟨id0, recSeq r, hi⟩
    · exact ih (id0 + 1) i hi

/-- The store keys a successful dispatch inserts are consecutive from
the starting correlation id. -/
theorem storeIds_metasFor :
    ∀ (id0 : Nat) (rs : List Record),
      storeIds (metasFor id0 rs) = List.range' id0 rs.length := by
  intro id0 rs
  induction rs generalizing id0 with
  | nil => rfl
  | cons r rs ih =>
    simp only [metasFor, storeIds, List.map_cons, List.length_cons]
    rw [List.range'_succ]
    simp only [storeIds] at ih
    rw [ih (id0 + 1)]

/-- Closed form of the sentinel loop when the queue has room. -/
theorem pushDones_ok :
    ∀ (n : Nat) (q : ArrayQueue (WorkQueue (Nat × String))),
      q.items.length + n ≤ q.cap →
      pushDones q n = .ok ⟨q.cap, q.items ++ List.replicate n .Done⟩ := by
  intro n
  induction n with
  | zero => intro q _; simp [pushDones]
  | succ m ih =>
    intro q hcap
    have hlt : q.items.length < q.cap := by omega
    have hpush : q.push .Done = .ok ⟨q.cap, q.items ++ [.Done]⟩ := by
      simp [ArrayQueue.push, hlt]
    simp only [pushDones, hpush]
    rw [ih ⟨q.cap, q.items ++ [WorkQueue.Done]⟩ (by simp; omega)]
    simp [List.replicate_succ, List.append_assoc]

/-- The worker pool processes an appended backlog in two stages. -/
theorem workerRun_append {O : Type} (engine : String → Option O) :
    ∀ (xs ys : List (WorkQueue (Nat × String)))
      (rq rq2 : ArrayQueue (WorkQueue (O × Nat))),
      workerRun engine rq xs = .ok rq2 →
      workerRun engine rq (xs ++ ys) = workerRun engine rq2 ys := by
  intro xs
  induction xs with
  | nil =>
    intro ys rq rq2 h
    simp only [workerRun] at h
    cases h
    simp
  | cons i xs ih =>
    intro ys rq rq2 h
    simp only [workerRun, List.cons_append] at h ⊢
    cases hs : workerStep engine rq i with
    | error p => simp only [hs] at h; exact Except.noConfusion h
    | ok rq3 =>
      simp only [hs] at h ⊢
      exact ih ys rq3 rq2 h

/-- Closed form of the worker pool over a run of `Work` items whose
payloads the engine all maps successfully, with enough room in the
results queue: one `Result` is published per item, carrying the same
correlation ids in the same order. -/
theorem workerRun_works {O : Type} (engine : String → Option O) :
    ∀ (ws : List (WorkQueue (Nat × String)))
      (rq : ArrayQueue (WorkQueue (O × Nat))),
      (∀ i ∈ ws, ∃ id s, i = .Work (id, s) ∧ (engine s).isSome = true) →
      rq.items.length + ws.length ≤ rq.cap →
      ∃ outs, workerRun engine rq ws = .ok ⟨rq.cap, rq.items ++ outs⟩ ∧
        (∀ x ∈ outs, isResultItem x = true) ∧
        resIds outs = workIds ws ∧ outs.length ≤ ws.length := by
  intro ws
  induction ws with
  | nil =>
    intro rq _ _
    exact ⟨[], by simp [workerRun], by simp, by simp [resIds, workIds], by simp⟩
  | cons i ws ih =>
    intro rq hshape hcap
    obtain ⟨id, s, hi, hsome⟩ := hshape i (List.mem_cons_self ..)
    subst hi
    obtain ⟨o, ho⟩ := Option.isSome_iff_exists.mp hsome
    have hlt : rq.items.length < rq.cap := by
      simp only [List.length_cons] at hcap; omega
    have hpush : rq.push (.Result (o, id)) =
        .ok ⟨rq.cap, rq.items ++ [.Result (o, id)]⟩ := by
      simp [ArrayQueue.push, hlt]
    have hstep : workerStep engine rq (.Work (id, s)) =
        .ok ⟨rq.cap, rq.items ++ [.Result (o, id)]⟩ := by
      simp [workerStep, ho, hpush]
    obtain ⟨outs, hrun, hres, hids, hlen⟩ :=
      ih ⟨rq.cap, rq.items ++ [WorkQueue.Result (o, id)]⟩
        (fun i hi => hshape i (List.mem_cons_of_mem _ hi))
        (by simp only [List.length_append, List.length_cons,
              List.length_nil] at hcap ⊢
            omega)
    refine ⟨.Result (o, id) :: outs, ?_, ?_, ?_, ?_⟩
    · simp only [workerRun, hstep]
      rw [hrun]
      simp [List.append_assoc]
    · intro x hx
      rcases List.mem_cons.mp hx with hx | hx
      · subst hx; rfl
      · exact hres x hx
    · simp only [resIds, workIds]
      rw [hids]
    · simp only [List.length_cons]
      omega

/-- Closed form of the worker pool over the `Done` sentinels. -/
theorem workerRun_dones {O : Type} (engine : String → Option O) :
    ∀ (k : Nat) (rq : ArrayQueue (WorkQueue (O × Nat))),
      rq.items.length + k ≤ rq.cap →
      workerRun engine rq (List.replicate k .Done) =
        .ok ⟨rq.cap, rq.items ++ List.replicate k .Done⟩ := by
  intro k
  induction k with
  | zero => intro rq _; simp [workerRun]
  | succ m ih =>
    intro rq hcap
    have hlt : rq.items.length < rq.cap := by omega
    have hpush : rq.push .Done = .ok ⟨rq.cap, rq.items ++ [.Done]⟩ := by
      simp [ArrayQueue.push, hlt]
    simp only [List.replicate_succ, workerRun, workerStep, hpush]
    rw [ih ⟨rq.cap, rq.items ++ [WorkQueue.Done]⟩ (by simp; omega)]
    simp [List.replicate_succ, List.append_assoc]

/-- A `Result` queue item is a `Result`. -/
theorem isResultItem_shape {T : Type} {x : WorkQueue T}
    (h : isResultItem x = true) : ∃ r, x = .Result r := by
  cases x with
  | Result r => exact ⟨r, rfl⟩
  | Work t => simp [isResultItem] at h
  | Done => simp [isResultItem] at h
  | Finished => simp [isResultItem] at h

/-- With the caller still listening, the collector forwards a run of
`Result` items one for one onto the output channel. -/
theorem collectorRun_results {O : Type} (n : Nat) :
    ∀ (outs rest : List (WorkQueue (O × Nat))) (st : CollectorSt O),
      (∀ x ∈ outs, isResultItem x = true) →
      collectorRun n true st (outs ++ rest) =
        collectorRun n true ⟨st.counter, st.sent ++ outs⟩ rest := by
  intro outs
  induction outs with
  | nil => intro rest st _; simp
  | cons x outs ih =>
    intro rest st hres
    obtain ⟨r, hx⟩ := isResultItem_shape (hres x (List.mem_cons_self ..))
    subst hx
    have hstep : collectorRun n true st ((WorkQueue.Result r :: outs) ++ rest) =
        collectorRun n true ⟨st.counter, st.sent ++ [WorkQueue.Result r]⟩
          (outs ++ rest) := rfl
    rw [hstep, ih rest ⟨st.counter, st.sent ++ [WorkQueue.Result r]⟩
      (fun x hx => hres x (List.mem_cons_of_mem _ hx))]
    simp [List.append_assoc]

/-- Counting the `Done` sentinels: when the counter plus the pending
sentinels equals the worker count, the collector absorbs them all,
sends `Finished` exactly once, and terminates with an empty backlog. -/
theorem collectorRun_dones {O : Type} (n : Nat) :
    ∀ (k : Nat) (st : CollectorSt O), st.counter + k = n → 1 ≤ k →
      collectorRun n true st (List.replicate k .Done) =
        .ok (⟨n, st.sent ++ [.Finished]⟩, []) := by
  intro k
  induction k with
  | zero => intro st h h1; exact absurd h1 (by omega)
  | succ m ih =>
    intro st hsum h1
    simp only [List.replicate_succ, collectorRun]
    by_cases hm : m = 0
    · subst hm
      have hc : st.counter + 1 = n := by omega
      rw [if_pos hc]
      simp [hc]
    · have hne : ¬(st.counter + 1 = n) := by omega
      rw [if_neg hne]
      exact ih ⟨st.counter + 1, st.sent⟩ (by simp; omega) (by omega)

/-- The iterator drains a channel holding one `Result` per pending
store entry (in any order) followed by `Finished`: everything is
delivered, the store ends empty, and the sequence ends cleanly. -/
theorem iterRun_drain {O : Type} :
    ∀ (outs : List (WorkQueue (O × Nat))) (store : List (Nat × Metadata)),
      (∀ x ∈ outs, isResultItem x = true) →
      (storeIds store).Nodup →
      (resIds outs).Perm (storeIds store) →
      ∃ ds, iterRun store (outs ++ [.Finished]) = .ok (ds, [], true) := by
  intro outs
  induction outs with
  | nil =>
    intro store _ _ hperm
    have hstore : store = [] := by
      have h0 : storeIds store = [] := hperm.symm.eq_nil
      simpa [storeIds, List.map_eq_nil_iff] using h0
    subst hstore
    exact ⟨[], rfl⟩
  | cons x outs ih =>
    intro store hres hnd hperm
    obtain ⟨r, hx⟩ := isResultItem_shape (hres x (List.mem_cons_self ..))
    obtain ⟨o, id⟩ := r
    subst hx
    have hidmem : id ∈ storeIds store := hperm.mem_iff.mp (by simp [resIds])
    obtain ⟨md, s2, hrem⟩ := storeRemove_isSome store id hidmem
    obtain ⟨_, _, hids⟩ := storeRemove_mem store id md s2 hrem
    have hnd2 : (storeIds s2).Nodup := by rw [hids]; exact hnd.erase id
    have hperm2 : (resIds outs).Perm (storeIds s2) := by
      rw [hids]
      have h1 := hperm.erase id
      simpa [resIds, List.erase_cons_head] using h1
    obtain ⟨ds2, hds2⟩ :=
      ih s2 (fun x hx => hres x (List.mem_cons_of_mem _ hx)) hnd2 hperm2
    refine ⟨(id, o, md) :: ds2, ?_⟩
    simp only [List.cons_append, iterRun, hrem]
    have hae : outs.append [WorkQueue.Finished] = outs ++ [WorkQueue.Finished] := rfl
    rw [hae, hds2]

/-- C6 amended: for a batch of well-formed records that fits in the
queues, with at least one worker and an engine that maps every payload
successfully, the batch completes (the `Finished` marker is
delivered), and the pending-metadata store is empty immediately after
completion — the entry for id X lives exactly from dispatch until the
Result for X is consumed by the iterator; only engine failures (see
the counterexample) leave entries behind. -/
theorem c6_amended_store_empty {O : Type} (engine : String → Option O)
    (n : Nat) (b : Bool) (cw cr : Nat) (records : List Record)
    (hg : ∀ r ∈ records, isGood r = true)
    (heng : ∀ s, (engine s).isSome = true)
    (hn : 1 ≤ n) (hcw : records.length + n ≤ cw)
    (hcr : records.length + n ≤ cr) :
    ∃ out, runBatch engine n b ⟨cw, []⟩ ⟨cr, []⟩ true records = .completed out ∧
      out.finalStore = [] ∧ out.finished = true := by
  have hdg := dispatchFrom_good b records ⟨[], ⟨cw, []⟩, []⟩ 0 hg
    (by simp; omega)
  simp only [List.nil_append, List.append_nil] at hdg
  have hpd := pushDones_ok n ⟨cw, worksFor 0 records⟩
    (by simp [worksFor_length]; omega)
  have hmbd : mapBatchDispatch n b ⟨cw, []⟩ records = .ok
      ⟨(metasFor 0 records).reverse,
        ⟨cw, worksFor 0 records ++ List.replicate n .Done⟩, []⟩ := by
    unfold mapBatchDispatch
    rw [if_neg (by omega), hdg]
    simp only [hpd]
  obtain ⟨outs, hwrun, houts, hids, hlen⟩ :=
    workerRun_works engine (worksFor 0 records) ⟨cr, []⟩
      (fun i hi => by
        obtain ⟨id, s, hi2⟩ := worksFor_shape 0 records i hi
        exact ⟨id, s, hi2, heng s⟩)
      (by simp [worksFor_length]; omega)
  simp only [List.nil_append] at hwrun
  have hwd := workerRun_dones engine n ⟨cr, outs⟩
    (by simp only []
        have hwl := worksFor_length 0 records
        omega)
  have hwfull : workerRun engine ⟨cr, []⟩
      (worksFor 0 records ++ List.replicate n .Done) =
      .ok ⟨cr, outs ++ List.replicate n .Done⟩ := by
    rw [workerRun_append engine (worksFor 0 records) (List.replicate n .Done)
      ⟨cr, []⟩ ⟨cr, outs⟩ hwrun, hwd]
  have hcoll : collectorRun n true ⟨0, []⟩ (outs ++ List.replicate n .Done) =
      .ok (⟨n, outs ++ [.Finished]⟩, []) := by
    rw [collectorRun_results n outs (List.replicate n .Done) ⟨0, []⟩ houts]
    rw [collectorRun_dones n n ⟨0, [] ++ outs⟩ (by simp) (by omega)]
    simp
  have hsnd : (storeIds ((metasFor 0 records).reverse)).Nodup := by
    simp only [storeIds, List.map_reverse]
    rw [List.nodup_reverse]
    have := storeIds_metasFor 0 records
    simp only [storeIds] at this
    rw [this]
    simp [List.nodup_range']
  have hperm : (resIds outs).Perm (storeIds ((metasFor 0 records).reverse)) := by
    rw [hids, workIds_worksFor]
    simp only [storeIds, List.map_reverse]
    have := storeIds_metasFor 0 records
    simp only [storeIds] at this
    rw [this]
    exact (List.reverse_perm _).symm
  obtain ⟨ds, hds⟩ := iterRun_drain outs ((metasFor 0 records).reverse)
    houts hsnd hperm
  refine ⟨⟨ds, [], true, []⟩, ?_, rfl, rfl⟩
  unfold runBatch
  simp only [hmbd, hwfull, hcoll, hds]

/-- Witness for C6 amended: a one-record batch with a total engine
completes with an empty store. -/
theorem c6_amended_witness :
    ∃ out, runBatch (O := Nat) (fun _ => some 1) 1 true ⟨10, []⟩ ⟨10, []⟩ true
      [some [("seq", PyVal.str "A")]] = .completed out ∧
      out.finalStore = [] ∧ out.finished = true :=
  c6_amended_store_empty (fun _ => some 1) 1 true 10 10
    [some [("seq", PyVal.str "A")]] (by decide) (fun _ => rfl)
    (by decide) (by decide) (by decide)

end MappyRs
